import Mathlib

/-!
# Option-contract pairing and verification engine

A shallow embedding of the straddle/strangle contract selection policies,
the position verifier, and the end-of-run invariant check of
`LongAndShortStraddleStrategiesAlgorithm.py` and
`LongAndShortStrangleStrategiesAlgorithm.py`, together with theorems
settling the specification claims about them.

Strikes and the underlying price are decimals, modelled as rationals;
expiries are dates on a totally ordered time axis, modelled as integers.
Python's `sorted` is a stable sort and is embedded as `List.mergeSort`
(also stable) with the corresponding boolean comparator; `sorted(...,
reverse=True)` keeps equal elements in their original order, so it is
embedded as the stable sort with the reversed comparator.
`itertools.groupby` splits a sequence into maximal contiguous runs of
equal key and is embedded as `groupByKey`.  Exceptions raised by the
verification code are embedded as `Except.error` results.
-/

namespace StraddleStrangle

/-- Option right: call or put (`OptionRight.Call` / `OptionRight.Put`). -/
inductive OptionRight where
  | call
  | put
deriving DecidableEq, Repr

/-- An option contract of the chain snapshot: its right, strike and expiry. -/
@[ext]
structure Contract where
  right : OptionRight
  strike : ℚ
  expiry : ℤ
deriving DecidableEq, Repr

/-- `contract.Right == OptionRight.Call` as a boolean predicate. -/
def isCall (c : Contract) : Bool := c.right == OptionRight.call

/-- `contract.Right == OptionRight.Put` as a boolean predicate. -/
def isPut (c : Contract) : Bool := c.right == OptionRight.put

/-- Python's `abs` on decimals (written so that it evaluates by kernel
reduction; `qabs_eq_abs` below identifies it with `|·|`). -/
def qabs (x : ℚ) : ℚ := if x < 0 then -x else x

/-- `sorted(sorted(chain, key=lambda x: abs(price - x.Strike)), key=lambda
x: x.Expiry, reverse=True)`: stably sort the chain by ascending distance of
the strike from the underlying price, then stably sort the result again by
descending expiry.  (Python's `sorted` is stable, and with `reverse=True`
it keeps elements that compare equal in their original order, so it is the
stable sort by the reversed comparator.) -/
def sortContracts (price : ℚ) (chain : List Contract) : List Contract :=
  (chain.mergeSort (fun a b => decide (qabs (price - a.strike) ≤ qabs (price - b.strike)))).mergeSort
    (fun a b => decide (b.expiry ≤ a.expiry))

/-- `itertools.groupby(l, key)`: split a list into maximal contiguous runs
of elements whose keys are equal.  (The `[]` branch of the inner match is
unreachable: `groupByKey` of a nonempty list is nonempty.) -/
def groupByKey {α β : Type} (k : α → β) [DecidableEq β] : List α → List (List α)
  | [] => []
  | [x] => [[x]]
  | x :: y :: xs =>
    match groupByKey k (y :: xs) with
    | [] => [[x], [y]]
    | g :: gs => if k x = k y then (x :: g) :: gs else [x] :: g :: gs

/-- The contiguous `(Strike, Expiry)` runs of the sorted chain that contain
at least one call and at least one put (the straddle policy's surviving
`groupedContracts`, in order). -/
def straddleCandidates (price : ℚ) (chain : List Contract) : List (List Contract) :=
  (groupByKey (fun c => (c.strike, c.expiry)) (sortContracts price chain)).filter
    (fun g => g.any isCall && g.any isPut)

/-- Straddle selection: `contracts = next(groupedContracts, [])`; if empty,
no pair; otherwise the straddle is built from `contracts[0].Strike` and
`contracts[0].Expiry`. -/
def straddleSelect (price : ℚ) (chain : List Contract) : Option (ℚ × ℤ) :=
  match straddleCandidates price chain with
  | [] => none
  | g :: _ => g.head?.map (fun c => (c.strike, c.expiry))

/-- The scan of the strangle policy over the expiry groups: in each group
sort the calls by descending strike and the puts by ascending strike, and
accept the first group where both sides are nonempty and the leading call
strike strictly exceeds the leading put strike. -/
def strangleLoop : List (List Contract) → Option (Contract × Contract)
  | [] => none
  | g :: gs =>
    let callContracts := (g.filter isCall).mergeSort (fun a b => decide (b.strike ≤ a.strike))
    let putContracts := (g.filter isPut).mergeSort (fun a b => decide (a.strike ≤ b.strike))
    match callContracts.head?, putContracts.head? with
    | some c, some p => if p.strike < c.strike then some (c, p) else strangleLoop gs
    | _, _ => strangleLoop gs

/-- Strangle selection: group the sorted chain into contiguous expiry runs
and scan them with `strangleLoop`; the strangle is built from the accepted
call and put contracts. -/
def strangleSelect (price : ℚ) (chain : List Contract) : Option (Contract × Contract) :=
  strangleLoop (groupByKey (fun c => c.expiry) (sortContracts price chain))

/-- One observed leg of a realized position: its right and signed quantity. -/
structure Leg where
  right : OptionRight
  quantity : ℤ
deriving DecidableEq, Repr

/-- The realized multi-leg position handed to the verifier: its legs and
the name of the buying-power model the runtime applied to the group. -/
structure PositionGroup where
  accountingModelTag : String
  legs : List Leg
deriving DecidableEq, Repr

/-- The accounting model expected for a recognized combined option
strategy: `OptionStrategyPositionGroupBuyingPowerModel`. -/
def expectedTag : String := "OptionStrategyPositionGroupBuyingPowerModel"

/-- The failure raised by each check of the position verifier. -/
inductive VerifyError where
  | mismatchedAccountingModel
  | unexpectedLegCount (actual : ℕ)
  | missingCallLeg
  | missingPutLeg
  | callQuantityMismatch (expected actual : ℤ)
  | putQuantityMismatch (expected actual : ℤ)
deriving DecidableEq, Repr

/-- `position.Symbol.ID.OptionRight == OptionRight.Call` for a leg. -/
def legIsCall (l : Leg) : Bool := l.right == OptionRight.call

/-- `position.Symbol.ID.OptionRight == OptionRight.Put` for a leg. -/
def legIsPut (l : Leg) : Bool := l.right == OptionRight.put

/-- The position verifier of the `else` branch of `OnData`: check the
buying-power model, then the leg count, then call-leg presence (`next(...,
None)`), then put-leg presence, then the call quantity, then the put
quantity, raising (modelled as `Except.error`) at the first failure. -/
def verifyPositionGroup (g : PositionGroup) (expectedCallQty expectedPutQty : ℤ) :
    Except VerifyError Unit :=
  if g.accountingModelTag ≠ expectedTag then .error .mismatchedAccountingModel
  else if g.legs.length ≠ 2 then .error (.unexpectedLegCount g.legs.length)
  else
    match g.legs.find? legIsCall with
    | none => .error .missingCallLeg
    | some callLeg =>
      match g.legs.find? legIsPut with
      | none => .error .missingPutLeg
      | some putLeg =>
        if callLeg.quantity ≠ expectedCallQty then
          .error (.callQuantityMismatch expectedCallQty callLeg.quantity)
        else if putLeg.quantity ≠ expectedPutQty then
          .error (.putQuantityMismatch expectedPutQty putLeg.quantity)
        else .ok ()

/-- Modelled from the spec: the list of ALL failing checks of the position
verifier, each check evaluated independently, listed in the fixed order —
accounting model tag, leg count, call-leg presence, put-leg presence, call
quantity, put quantity.  (The source evaluates the same checks in this
order but raises at the first failure; this definition follows the spec's
words "collect all failures" and is compared against
`verifyPositionGroup`.) -/
def specFailures (g : PositionGroup) (expectedCallQty expectedPutQty : ℤ) :
    List VerifyError :=
  (if g.accountingModelTag ≠ expectedTag then [VerifyError.mismatchedAccountingModel] else []) ++
  (if g.legs.length ≠ 2 then [VerifyError.unexpectedLegCount g.legs.length] else []) ++
  (match g.legs.find? legIsCall with
   | none => [VerifyError.missingCallLeg]
   | some _ => []) ++
  (match g.legs.find? legIsPut with
   | none => [VerifyError.missingPutLeg]
   | some _ => []) ++
  (match g.legs.find? legIsCall with
   | none => []
   | some callLeg =>
     if callLeg.quantity ≠ expectedCallQty then
       [VerifyError.callQuantityMismatch expectedCallQty callLeg.quantity]
     else []) ++
  (match g.legs.find? legIsPut with
   | none => []
   | some putLeg =>
     if putLeg.quantity ≠ expectedPutQty then
       [VerifyError.putQuantityMismatch expectedPutQty putLeg.quantity]
     else [])

/-- The failure raised by the end-of-run invariant check. -/
inductive EndOfRunError where
  | residualPosition
  | orderCountMismatch (actual : ℕ)
deriving DecidableEq, Repr

/-- `OnEndOfAlgorithm`: raise (modelled as `Except.error`) if a position is
still open, else if the count of filled orders differs from 4. -/
def endOfRunCheck (invested : Bool) (filledOrderCount : ℕ) : Except EndOfRunError Unit :=
  if invested then .error .residualPosition
  else if filledOrderCount ≠ 4 then .error (.orderCountMismatch filledOrderCount)
  else .ok ()

/-! Concrete snapshots used to settle the concrete claims.  The underlying
price is 100 in all of them. -/

/-- Snapshot: at-the-money straddle pair at expiry 1, ten-points-out pair
at the later expiry 2. -/
def exPairTwoExpiries : List Contract :=
  [⟨.call, 100, 1⟩, ⟨.put, 100, 1⟩, ⟨.call, 110, 2⟩, ⟨.put, 110, 2⟩]

/-- The spec's strangle example: single expiry, CALL 105, CALL 110,
PUT 90, PUT 95. -/
def exStrangle : List Contract :=
  [⟨.call, 105, 1⟩, ⟨.call, 110, 1⟩, ⟨.put, 90, 1⟩, ⟨.put, 95, 1⟩]

/-- Snapshot where the key (95, 1) holds a call and a put, but another
equally-moneyed contract (CALL 105) sits between them in enumeration
order. -/
def exSplitKey : List Contract :=
  [⟨.call, 95, 1⟩, ⟨.call, 105, 1⟩, ⟨.put, 95, 1⟩]

/-- The same contracts as `exSplitKey`, enumerated in a different order. -/
def exSplitKeyPerm : List Contract :=
  [⟨.call, 95, 1⟩, ⟨.put, 95, 1⟩, ⟨.call, 105, 1⟩]

/-- A position group violating both the accounting-model check and the
leg-count check. -/
def exBadGroup : PositionGroup :=
  ⟨"SecurityPositionGroupBuyingPowerModel", [⟨.call, 2⟩, ⟨.put, 2⟩, ⟨.put, 1⟩]⟩

/-- The expected long-straddle position group: correct tag, one call leg
and one put leg of quantity +2 each. -/
def exGoodGroup : PositionGroup :=
  ⟨expectedTag, [⟨.call, 2⟩, ⟨.put, 2⟩]⟩

unseal Rat.sub List.merge List.mergeSort

/-- `qabs` agrees with the absolute value. -/
theorem qabs_eq_abs (x : ℚ) : qabs x = |x| := by
  unfold qabs
  rcases lt_or_le x 0 with h | h
  · simp [abs_of_neg h, h]
  · simp [abs_of_nonneg h, not_lt.mpr h]

/-! ### Runs produced by `groupByKey` -/

/-- The first group of `groupByKey` on `x :: xs` is `x` together with the
maximal prefix of `xs` sharing `x`'s key; the remaining groups are those of
the rest. -/
theorem groupByKey_cons_eq {α β : Type} (k : α → β) [DecidableEq β] :
    ∀ (x : α) (xs : List α),
      groupByKey k (x :: xs) =
        (x :: xs.takeWhile (fun b => decide (k b = k x))) ::
          groupByKey k (xs.dropWhile (fun b => decide (k b = k x)))
  | x, [] => by simp [groupByKey]
  | x, y :: ys => by
    have ih := groupByKey_cons_eq k y ys
    by_cases hxy : k x = k y
    · simp [groupByKey, ih, hxy]
    · have hyx : ¬ (k y = k x) := fun h => hxy h.symm
      simp [groupByKey, ih, hxy, hyx]

/-- Every group produced by `groupByKey` is nonempty. -/
theorem groupByKey_ne_nil {α β : Type} (k : α → β) [DecidableEq β] :
    ∀ (l : List α), ∀ g ∈ groupByKey k l, g ≠ []
  | [] => by simp [groupByKey]
  | x :: xs => by
    rw [groupByKey_cons_eq]
    intro g hg
    rcases List.mem_cons.mp hg with rfl | hg'
    · simp
    · exact groupByKey_ne_nil k _ g hg'
termination_by l => l.length
decreasing_by
  simp only [List.length_cons]
  exact Nat.lt_succ_of_le (List.Sublist.length_le (List.dropWhile_sublist _))

/-- Concatenating the groups of `groupByKey` recovers the original list:
every element belongs to exactly one contiguous run. -/
theorem groupByKey_join {α β : Type} (k : α → β) [DecidableEq β] :
    ∀ (l : List α), (groupByKey k l).flatten = l
  | [] => rfl
  | x :: xs => by
    rw [groupByKey_cons_eq]
    have ih := groupByKey_join k (xs.dropWhile (fun b => decide (k b = k x)))
    simp [ih, List.takeWhile_append_dropWhile]
termination_by l => l.length
decreasing_by
  simp only [List.length_cons]
  exact Nat.lt_succ_of_le (List.Sublist.length_le (List.dropWhile_sublist _))

/-- All elements of one `groupByKey` group share the same key. -/
theorem groupByKey_key_const {α β : Type} (k : α → β) [DecidableEq β] :
    ∀ (l : List α), ∀ g ∈ groupByKey k l, ∀ a ∈ g, ∀ b ∈ g, k a = k b
  | [] => by simp [groupByKey]
  | x :: xs => by
    rw [groupByKey_cons_eq]
    intro g hg a ha b hb
    rcases List.mem_cons.mp hg with rfl | hg'
    · have key : ∀ c ∈ x :: xs.takeWhile (fun b => decide (k b = k x)), k c = k x := by
        intro c hc
        rcases List.mem_cons.mp hc with rfl | hc'
        · rfl
        · simpa using List.mem_takeWhile_imp hc'
      rw [key a ha, key b hb]
    · exact groupByKey_key_const k _ g hg' a ha b hb
termination_by l => l.length
decreasing_by
  simp only [List.length_cons]
  exact Nat.lt_succ_of_le (List.Sublist.length_le (List.dropWhile_sublist _))

/-- Group members are members of the original list. -/
theorem groupByKey_mem {α β : Type} (k : α → β) [DecidableEq β] {l : List α}
    {g : List α} (hg : g ∈ groupByKey k l) {a : α} (ha : a ∈ g) : a ∈ l := by
  have := groupByKey_join k l
  rw [← this]
  exact List.mem_flatten.mpr ⟨g, hg, ha⟩


/-! ### Runs of a list sorted by descending key -/

/-- In a list sorted by descending key, the head has the maximal key. -/
theorem sorted_head_key_max {α β : Type} [LinearOrder β] (k : α → β) {x : α} {xs : List α}
    (h : (x :: xs).Pairwise (fun a b => k b ≤ k a)) :
    ∀ a ∈ x :: xs, k a ≤ k x := by
  intro a ha
  rcases List.mem_cons.mp ha with rfl | ha'
  · exact le_refl _
  · exact (List.pairwise_cons.mp h).1 a ha'

/-- In a list headed by a maximal-key element, the run of the head's key is
all of that key's elements: `takeWhile` agrees with `filter`. -/
theorem sorted_takeWhile_eq_filter {α β : Type} [LinearOrder β] (k : α → β) (p : α → Bool) :
    ∀ (x : α) (xs : List α), (∀ b, p b = true ↔ k b = k x) →
      (x :: xs).Pairwise (fun a b => k b ≤ k a) →
      xs.takeWhile p = xs.filter p
  | _, [], _, _ => rfl
  | x, y :: ys, hsem, h => by
    have hxys : (x :: ys).Pairwise (fun a b => k b ≤ k a) :=
      List.Pairwise.sublist (List.Sublist.cons₂ x (List.sublist_cons_self y ys)) h
    by_cases hyx : p y = true
    · simpa [List.takeWhile_cons, List.filter_cons, hyx] using
        sorted_takeWhile_eq_filter k p x ys hsem hxys
    · have hlt : k y < k x :=
        lt_of_le_of_ne (sorted_head_key_max k h y (by simp))
          (fun hk => hyx ((hsem y).mpr hk))
      have hys : ∀ b ∈ ys, ¬ (p b = true) := by
        intro b hb hbk
        have h1 : k b ≤ k y :=
          (List.pairwise_cons.mp (List.pairwise_cons.mp h).2).1 b hb
        rw [(hsem b).mp hbk] at h1
        exact absurd h1 (not_le.mpr hlt)
      have hyx' : p y = false := Bool.not_eq_true _ ▸ eq_false_of_ne_true hyx
      simp only [List.takeWhile_cons, List.filter_cons, hyx', if_false, Bool.false_eq_true]
      symm
      rw [List.filter_eq_nil_iff]
      intro b hb
      simpa using hys b hb

/-- After the run of a maximal key, only the other keys remain:
`dropWhile` agrees with filtering the key away. -/
theorem sorted_dropWhile_eq_filter {α β : Type} [LinearOrder β] (k : α → β) (p : α → Bool) :
    ∀ (x : α) (xs : List α), (∀ b, p b = true ↔ k b = k x) →
      (x :: xs).Pairwise (fun a b => k b ≤ k a) →
      xs.dropWhile p = xs.filter (fun b => ! p b)
  | _, [], _, _ => rfl
  | x, y :: ys, hsem, h => by
    have hxys : (x :: ys).Pairwise (fun a b => k b ≤ k a) :=
      List.Pairwise.sublist (List.Sublist.cons₂ x (List.sublist_cons_self y ys)) h
    by_cases hyx : p y = true
    · simpa [List.dropWhile_cons, List.filter_cons, hyx] using
        sorted_dropWhile_eq_filter k p x ys hsem hxys
    · have hlt : k y < k x :=
        lt_of_le_of_ne (sorted_head_key_max k h y (by simp))
          (fun hk => hyx ((hsem y).mpr hk))
      have hys : ∀ b ∈ ys, ¬ (p b = true) := by
        intro b hb hbk
        have h1 : k b ≤ k y :=
          (List.pairwise_cons.mp (List.pairwise_cons.mp h).2).1 b hb
        rw [(hsem b).mp hbk] at h1
        exact absurd h1 (not_le.mpr hlt)
      have hyx' : p y = false := Bool.not_eq_true _ ▸ eq_false_of_ne_true hyx
      simp only [List.dropWhile_cons, List.filter_cons, hyx', if_false, Bool.false_eq_true,
        Bool.not_false, if_true, if_pos]
      congr 1
      symm
      rw [List.filter_eq_self]
      intro b hb
      simp [eq_false_of_ne_true (hys b hb)]

/-- On a list sorted by descending key, distinct `groupByKey` runs carry
distinct keys. -/
theorem groupByKey_sorted_pairwise_ne {α β : Type} [LinearOrder β] [DecidableEq β] (k : α → β) :
    ∀ (l : List α), l.Pairwise (fun a b => k b ≤ k a) →
      (groupByKey k l).Pairwise (fun g h => ∀ a ∈ g, ∀ b ∈ h, k a ≠ k b)
  | [], _ => by simp [groupByKey]
  | x :: xs, h => by
    rw [groupByKey_cons_eq]
    have hdrop := sorted_dropWhile_eq_filter k (fun b => decide (k b = k x)) x xs
      (fun b => by simp) h
    have hsorted : (xs.dropWhile (fun b => decide (k b = k x))).Pairwise
        (fun a b => k b ≤ k a) :=
      List.Pairwise.sublist
        ((List.dropWhile_sublist _).trans (List.sublist_cons_self x xs)) h
    refine List.pairwise_cons.mpr ⟨?_, groupByKey_sorted_pairwise_ne k _ hsorted⟩
    intro g hg a ha b hb
    have ha' : k a = k x := by
      rcases List.mem_cons.mp ha with rfl | ha'
      · rfl
      · simpa using List.mem_takeWhile_imp ha'
    have hb' : ¬ (k b = k x) := by
      have hbmem : b ∈ xs.dropWhile (fun b => decide (k b = k x)) :=
        groupByKey_mem k hg hb
      rw [hdrop] at hbmem
      simpa using List.of_mem_filter hbmem
    rw [ha']
    exact fun hab => hb' hab.symm
termination_by l => l.length
decreasing_by
  simp only [List.length_cons]
  exact Nat.lt_succ_of_le (List.Sublist.length_le (List.dropWhile_sublist _))

/-- Permutation congruence: two sorted-by-descending-key permutations of
the same elements produce pointwise-permuted `groupByKey` runs. -/
theorem groupByKey_perm_congr {α β : Type} [LinearOrder β] [DecidableEq β] (k : α → β) :
    ∀ (s₁ s₂ : List α), s₁.Pairwise (fun a b => k b ≤ k a) →
      s₂.Pairwise (fun a b => k b ≤ k a) → s₁.Perm s₂ →
      List.Forall₂ (fun g h => g.Perm h) (groupByKey k s₁) (groupByKey k s₂)
  | [], [], _, _, _ => by simp [groupByKey]
  | [], _ :: _, _, _, hp => absurd hp.length_eq (by simp)
  | _ :: _, [], _, _, hp => absurd hp.length_eq (by simp)
  | x :: xs, y :: ys, h₁, h₂, hp => by
    have hkxy : k x = k y := by
      have hy1 : y ∈ x :: xs := hp.mem_iff.mpr (by simp)
      have hx2 : x ∈ y :: ys := hp.mem_iff.mp (by simp)
      exact le_antisymm (sorted_head_key_max k h₂ x hx2) (sorted_head_key_max k h₁ y hy1)
    rw [groupByKey_cons_eq, groupByKey_cons_eq]
    have hsem₂ : ∀ b, (decide (k b = k y) = true) ↔ k b = k y := fun b => by simp
    have htake₁ := sorted_takeWhile_eq_filter k (fun b => decide (k b = k x)) x xs
      (fun b => by simp) h₁
    have htake₂ := sorted_takeWhile_eq_filter k (fun b => decide (k b = k y)) y ys
      hsem₂ h₂
    have hdrop₁ := sorted_dropWhile_eq_filter k (fun b => decide (k b = k x)) x xs
      (fun b => by simp) h₁
    have hdrop₂ := sorted_dropWhile_eq_filter k (fun b => decide (k b = k y)) y ys
      hsem₂ h₂
    refine List.Forall₂.cons ?_ ?_
    · -- the two leading runs are the filters of the (equal) head keys, and
      -- filters of permutations are permutations
      rw [htake₁, htake₂]
      have e₁ : x :: xs.filter (fun b => decide (k b = k x)) =
          (x :: xs).filter (fun b => decide (k b = k x)) := by
        simp [List.filter_cons]
      have e₂ : y :: ys.filter (fun b => decide (k b = k y)) =
          (y :: ys).filter (fun b => decide (k b = k y)) := by
        simp [List.filter_cons]
      rw [e₁, e₂]
      simp only [← hkxy]
      exact hp.filter _
    · have hs₁ : (xs.dropWhile (fun b => decide (k b = k x))).Pairwise
          (fun a b => k b ≤ k a) :=
        List.Pairwise.sublist
          ((List.dropWhile_sublist _).trans (List.sublist_cons_self x xs)) h₁
      have hs₂ : (ys.dropWhile (fun b => decide (k b = k y))).Pairwise
          (fun a b => k b ≤ k a) :=
        List.Pairwise.sublist
          ((List.dropWhile_sublist _).trans (List.sublist_cons_self y ys)) h₂
      have hperm : (xs.dropWhile (fun b => decide (k b = k x))).Perm
          (ys.dropWhile (fun b => decide (k b = k y))) := by
        rw [hdrop₁, hdrop₂]
        have e₁ : xs.filter (fun b => ! (decide (k b = k x))) =
            (x :: xs).filter (fun b => ! (decide (k b = k x))) := by
          simp [List.filter_cons]
        have e₂ : ys.filter (fun b => ! (decide (k b = k y))) =
            (y :: ys).filter (fun b => ! (decide (k b = k y))) := by
          simp [List.filter_cons]
        rw [e₁, e₂]
        simp only [← hkxy]
        exact hp.filter _
      exact groupByKey_perm_congr k _ _ hs₁ hs₂ hperm
termination_by s₁ _ => s₁.length
decreasing_by
  simp only [List.length_cons]
  exact Nat.lt_succ_of_le (List.Sublist.length_le (List.dropWhile_sublist _))

/-! ### Order and stability of the double sort -/

/-- `sortContracts` permutes the chain. -/
theorem sortContracts_perm (price : ℚ) (chain : List Contract) :
    (sortContracts price chain).Perm chain :=
  (List.mergeSort_perm _ _).trans (List.mergeSort_perm _ _)

/-- The sorted chain has descending expiries (the outer — hence primary —
sort key). -/
theorem sortContracts_sorted_expiry (price : ℚ) (chain : List Contract) :
    (sortContracts price chain).Pairwise (fun a b => b.expiry ≤ a.expiry) := by
  have h := @List.sorted_mergeSort Contract
    (fun a b : Contract => decide (b.expiry ≤ a.expiry))
    (fun a b c h₁ h₂ => by
      simp only [decide_eq_true_eq] at h₁ h₂ ⊢
      exact le_trans h₂ h₁)
    (fun a b => by simpa using le_total b.expiry a.expiry)
    (chain.mergeSort (fun a b => decide (qabs (price - a.strike) ≤ qabs (price - b.strike))))
  exact h.imp (fun hab => by simpa using hab)

/-- Order and stability of the double sort, in one statement: the sorted
chain is ordered by descending expiry, and within one expiry by ascending
distance of the strike from the underlying price. -/
theorem sortContracts_pairwise_lex (price : ℚ) (chain : List Contract) :
    (sortContracts price chain).Pairwise
      (fun a b => b.expiry ≤ a.expiry ∧
        (b.expiry = a.expiry → qabs (price - a.strike) ≤ qabs (price - b.strike))) := by
  have hinner : (chain.mergeSort
      (fun a b => decide (qabs (price - a.strike) ≤ qabs (price - b.strike)))).Pairwise
      (fun a b => qabs (price - a.strike) ≤ qabs (price - b.strike)) := by
    have h := @List.sorted_mergeSort Contract
      (fun a b : Contract => decide (qabs (price - a.strike) ≤ qabs (price - b.strike)))
      (fun a b c h₁ h₂ => by
        simp only [decide_eq_true_eq] at h₁ h₂ ⊢
        exact le_trans h₁ h₂)
      (fun a b => by
        simpa using le_total (qabs (price - a.strike)) (qabs (price - b.strike)))
      chain
    exact h.imp (fun hab => by simpa using hab)
  rw [sortContracts, ← List.mergeSort_enum]
  set inner := chain.mergeSort
    (fun a b => decide (qabs (price - a.strike) ≤ qabs (price - b.strike))) with hinner_def
  have hS : (inner.enum.mergeSort
      (List.enumLE (fun a b => decide (b.expiry ≤ a.expiry)))).Pairwise
      (fun u v => List.enumLE (fun a b => decide (b.expiry ≤ a.expiry)) u v = true) := by
    have h := @List.sorted_mergeSort (ℕ × Contract)
      (List.enumLE (fun a b : Contract => decide (b.expiry ≤ a.expiry)))
      (List.enumLE_trans (fun a b c h₁ h₂ => by
        simp only [decide_eq_true_eq] at h₁ h₂ ⊢
        exact le_trans h₂ h₁))
      (List.enumLE_total (fun a b => by simpa using le_total b.expiry a.expiry))
      inner.enum
    exact h.imp (fun hab => by simpa using hab)
  have hS' : (inner.enum.mergeSort
      (List.enumLE (fun a b => decide (b.expiry ≤ a.expiry)))).Pairwise
      (fun u v => v.2.expiry ≤ u.2.expiry ∧
        (v.2.expiry = u.2.expiry →
          qabs (price - u.2.strike) ≤ qabs (price - v.2.strike))) := by
    refine hS.imp_of_mem ?_
    intro u v hu hv huv
    have hu' : (u.1, u.2) ∈ inner.enum := by
      simpa using List.mem_mergeSort.mp hu
    have hv' : (v.1, v.2) ∈ inner.enum := by
      simpa using List.mem_mergeSort.mp hv
    rw [List.mk_mem_enum_iff_getElem?] at hu' hv'
    simp only [List.enumLE] at huv
    by_cases h1 : v.2.expiry ≤ u.2.expiry
    · refine ⟨h1, ?_⟩
      intro heq
      have h2 : u.2.expiry ≤ v.2.expiry := le_of_eq heq.symm
      simp only [decide_eq_true h1, decide_eq_true h2, if_true, decide_eq_true_eq] at huv
      -- huv : u.1 ≤ v.1
      obtain ⟨hulen, hu2⟩ := List.getElem?_eq_some_iff.mp hu'
      obtain ⟨hvlen, hv2⟩ := List.getElem?_eq_some_iff.mp hv'
      rcases lt_or_eq_of_le huv with hlt | heqi
      · have := List.pairwise_iff_getElem.mp hinner u.1 v.1 hulen hvlen hlt
        rw [hu2, hv2] at this
        exact this
      · rw [← hu2, ← hv2]
        simp [heqi]
    · rw [if_neg (by simpa using h1)] at huv
      exact absurd huv (by simp)
  exact hS'.map _ (fun u v h => h)

/-! ### The strangle scan -/

/-- Heads of stable sorts of permuted lists agree when the comparator is
antisymmetric on the elements involved. -/
theorem head_mergeSort_congr (le : Contract → Contract → Bool)
    (htrans : ∀ a b c, le a b = true → le b c = true → le a c = true)
    (htotal : ∀ a b, le a b || le b a)
    {xs ys : List Contract} (hperm : xs.Perm ys)
    (hanti : ∀ a ∈ xs, ∀ b ∈ xs, le a b = true → le b a = true → a = b) :
    (xs.mergeSort le).head? = (ys.mergeSort le).head? := by
  cases hx : (xs.mergeSort le).head? with
  | none =>
    have hxnil : xs = [] := by
      have h0 := List.head?_eq_none_iff.mp hx
      have := congrArg List.length h0
      simpa using this
    have hynil : ys = [] := List.eq_nil_of_length_eq_zero
      (by simpa [hxnil] using hperm.length_eq.symm)
    simp [hxnil, hynil]
  | some h₁ =>
    obtain ⟨t₁, ht₁⟩ := List.head?_eq_some_iff.mp hx
    have hmax₁ : ∀ c ∈ xs, le h₁ c = true := by
      intro c hc
      have hc' : c ∈ h₁ :: t₁ := by
        rw [← ht₁]
        exact List.mem_mergeSort.mpr hc
      rcases List.mem_cons.mp hc' with rfl | hc''
      · have := htotal c c
        simpa using this
      · have hs := List.sorted_mergeSort htrans (fun a b => by simpa using htotal a b) xs
        rw [ht₁] at hs
        have := (List.pairwise_cons.mp hs).1 c hc''
        simpa using this
    have hysne : ys ≠ [] := by
      intro hnil
      rw [hnil] at hperm
      have := hperm.length_eq
      rw [ht₁] at hx
      simp at this
      simp [this] at ht₁
    cases hy : (ys.mergeSort le).head? with
    | none =>
      exact absurd (by simpa using congrArg List.length (List.head?_eq_none_iff.mp hy))
        hysne
    | some h₂ =>
      obtain ⟨t₂, ht₂⟩ := List.head?_eq_some_iff.mp hy
      have hmax₂ : ∀ c ∈ ys, le h₂ c = true := by
        intro c hc
        have hc' : c ∈ h₂ :: t₂ := by
          rw [← ht₂]
          exact List.mem_mergeSort.mpr hc
        rcases List.mem_cons.mp hc' with rfl | hc''
        · have := htotal c c
          simpa using this
        · have hs := List.sorted_mergeSort htrans (fun a b => by simpa using htotal a b) ys
          rw [ht₂] at hs
          have := (List.pairwise_cons.mp hs).1 c hc''
          simpa using this
      have hm₁ : h₁ ∈ xs := by
        have : h₁ ∈ xs.mergeSort le := by
          rw [ht₁]
          exact List.mem_cons_self _ _
        exact List.mem_mergeSort.mp this
      have hm₂ : h₂ ∈ ys := by
        have : h₂ ∈ ys.mergeSort le := by
          rw [ht₂]
          exact List.mem_cons_self _ _
        exact List.mem_mergeSort.mp this
      have hm₂x : h₂ ∈ xs := hperm.mem_iff.mpr hm₂
      have h12 : le h₁ h₂ = true := hmax₁ h₂ hm₂x
      have h21 : le h₂ h₁ = true := hmax₂ h₁ (hperm.mem_iff.mp hm₁)
      rw [hanti h₁ hm₁ h₂ hm₂x h12 h21]

/-- The strangle scan only looks at each expiry group through its
highest-strike call and lowest-strike put, so pointwise-permuted group
sequences with per-group constant expiries scan identically. -/
theorem strangleLoop_congr :
    ∀ {G₁ G₂ : List (List Contract)}, List.Forall₂ (fun g h => g.Perm h) G₁ G₂ →
      (∀ g ∈ G₁, ∀ a ∈ g, ∀ b ∈ g, a.expiry = b.expiry) →
      strangleLoop G₁ = strangleLoop G₂ := by
  intro G₁ G₂ hF
  induction hF with
  | nil => intro _; rfl
  | cons hg hG ih =>
    rename_i g₁ g₂ t₁ t₂
    intro hexp
    have hexp₁ : ∀ a ∈ g₁, ∀ b ∈ g₁, a.expiry = b.expiry :=
      hexp g₁ (by simp)
    have hexptail : ∀ g ∈ t₁, ∀ a ∈ g, ∀ b ∈ g, a.expiry = b.expiry := by
      intro g hgmem
      exact hexp g (by simp [hgmem])
    have hcall : ((g₁.filter isCall).mergeSort (fun a b => decide (b.strike ≤ a.strike))).head?
        = ((g₂.filter isCall).mergeSort (fun a b => decide (b.strike ≤ a.strike))).head? := by
      refine head_mergeSort_congr _ ?_ ?_ (hg.filter _) ?_
      · intro a b c h₁ h₂
        simp only [decide_eq_true_eq] at h₁ h₂ ⊢
        exact le_trans h₂ h₁
      · intro a b
        simpa using le_total b.strike a.strike
      · intro a haf b hbf hab hba
        simp only [decide_eq_true_eq] at hab hba
        have hstrike : a.strike = b.strike := le_antisymm hba hab
        have ha := List.mem_filter.mp haf
        have hb := List.mem_filter.mp hbf
        have haright : a.right = OptionRight.call := by
          simpa [isCall] using ha.2
        have hbright : b.right = OptionRight.call := by
          simpa [isCall] using hb.2
        ext
        · rw [haright, hbright]
        · exact hstrike
        · exact hexp₁ a ha.1 b hb.1
    have hput : ((g₁.filter isPut).mergeSort (fun a b => decide (a.strike ≤ b.strike))).head?
        = ((g₂.filter isPut).mergeSort (fun a b => decide (a.strike ≤ b.strike))).head? := by
      refine head_mergeSort_congr _ ?_ ?_ (hg.filter _) ?_
      · intro a b c h₁ h₂
        simp only [decide_eq_true_eq] at h₁ h₂ ⊢
        exact le_trans h₁ h₂
      · intro a b
        simpa using le_total a.strike b.strike
      · intro a haf b hbf hab hba
        simp only [decide_eq_true_eq] at hab hba
        have hstrike : a.strike = b.strike := le_antisymm hab hba
        have ha := List.mem_filter.mp haf
        have hb := List.mem_filter.mp hbf
        have haright : a.right = OptionRight.put := by
          simpa [isPut] using ha.2
        have hbright : b.right = OptionRight.put := by
          simpa [isPut] using hb.2
        ext
        · rw [haright, hbright]
        · exact hstrike
        · exact hexp₁ a ha.1 b hb.1
    simp only [strangleLoop, hcall, hput, ih hexptail]

/-- Whenever the strangle scan accepts a pair, the call comes from the
`isCall` side, the put from the `isPut` side, the call strike strictly
exceeds the put strike, and both come from one constant-expiry group. -/
theorem strangleLoop_some_spec :
    ∀ (G : List (List Contract)), (∀ g ∈ G, ∀ a ∈ g, ∀ b ∈ g, a.expiry = b.expiry) →
      ∀ {c p : Contract}, strangleLoop G = some (c, p) →
      c.right = OptionRight.call ∧ p.right = OptionRight.put ∧
        p.strike < c.strike ∧ c.expiry = p.expiry := by
  intro G
  induction G with
  | nil =>
    intro _ c p h
    simp [strangleLoop] at h
  | cons g gs ih =>
    intro hexp c p h
    have hexptail : ∀ g' ∈ gs, ∀ a ∈ g', ∀ b ∈ g', a.expiry = b.expiry := by
      intro g' hg'
      exact hexp g' (by simp [hg'])
    simp only [strangleLoop] at h
    cases hc : ((g.filter isCall).mergeSort (fun a b => decide (b.strike ≤ a.strike))).head? with
    | none =>
      rw [hc] at h
      cases hp : ((g.filter isPut).mergeSort (fun a b => decide (a.strike ≤ b.strike))).head? with
      | none =>
        rw [hp] at h
        exact ih hexptail h
      | some p₀ =>
        rw [hp] at h
        exact ih hexptail h
    | some c₀ =>
      rw [hc] at h
      cases hp : ((g.filter isPut).mergeSort (fun a b => decide (a.strike ≤ b.strike))).head? with
      | none =>
        rw [hp] at h
        exact ih hexptail h
      | some p₀ =>
        rw [hp] at h
        change (if p₀.strike < c₀.strike then some (c₀, p₀) else strangleLoop gs)
          = some (c, p) at h
        by_cases hcond : p₀.strike < c₀.strike
        · rw [if_pos hcond] at h
          obtain ⟨rfl, rfl⟩ : c₀ = c ∧ p₀ = p := by
            have := Option.some.inj h
            exact ⟨congrArg Prod.fst this, congrArg Prod.snd this⟩
          have hcmem0 : c₀ ∈ ((g.filter isCall).mergeSort
              (fun a b => decide (b.strike ≤ a.strike))).head? := by
            simp [hc, Option.mem_def]
          have hpmem0 : p₀ ∈ ((g.filter isPut).mergeSort
              (fun a b => decide (a.strike ≤ b.strike))).head? := by
            simp [hp, Option.mem_def]
          have hcmem : c₀ ∈ g.filter isCall :=
            List.mem_mergeSort.mp (List.mem_of_mem_head? hcmem0)
          have hpmem : p₀ ∈ g.filter isPut :=
            List.mem_mergeSort.mp (List.mem_of_mem_head? hpmem0)
          have hcg := List.mem_filter.mp hcmem
          have hpg := List.mem_filter.mp hpmem
          refine ⟨by simpa [isCall] using hcg.2, by simpa [isPut] using hpg.2, hcond, ?_⟩
          exact hexp g (by simp) c₀ hcg.1 p₀ hpg.1
        · rw [if_neg hcond] at h
          exact ih hexptail h

/-! ### The position verifier -/

/-- The verifier returns `Ok` when no check fails and otherwise the first
entry of the ordered list of all failing checks. -/
theorem verify_eq_head_failures (g : PositionGroup) (ecq epq : ℤ) :
    verifyPositionGroup g ecq epq =
      (match (specFailures g ecq epq).head? with
       | none => Except.ok ()
       | some e => Except.error e) := by
  by_cases h1 : g.accountingModelTag = expectedTag
  · by_cases h2 : g.legs.length = 2
    · cases hc : g.legs.find? legIsCall with
      | none =>
        simp [verifyPositionGroup, specFailures, h1, h2, hc]
      | some cl =>
        cases hpf : g.legs.find? legIsPut with
        | none =>
          simp [verifyPositionGroup, specFailures, h1, h2, hc, hpf]
        | some pl =>
          by_cases h5 : cl.quantity = ecq
          · by_cases h6 : pl.quantity = epq
            · simp [verifyPositionGroup, specFailures, h1, h2, hc, hpf, h5, h6]
            · simp [verifyPositionGroup, specFailures, h1, h2, hc, hpf, h5, h6]
          · simp [verifyPositionGroup, specFailures, h1, h2, hc, hpf, h5]
    · simp [verifyPositionGroup, specFailures, h1, h2]
  · simp [verifyPositionGroup, specFailures, h1]

/-! ### Claim theorems -/

/-- C1, counterexample: with underlying price 100, the straddle policy
prefers the (110, expiry 2) group over the strictly closer-to-the-money
(100, expiry 1) group, although both qualify — the later expiry wins even
when moneyness differs, refuting "closest-to-the-money first, expiry only
breaks ties". -/
theorem C1_counterexample :
    straddleCandidates 100 exPairTwoExpiries =
      [[⟨.call, 110, 2⟩, ⟨.put, 110, 2⟩], [⟨.call, 100, 1⟩, ⟨.put, 100, 1⟩]] ∧
    straddleSelect 100 exPairTwoExpiries = some (110, 2) ∧
    qabs (100 - 100) < qabs (100 - 110) := by
  refine ⟨by decide, by decide, by decide⟩

/-- C1 (amended): in both selection policies the candidate contracts are
ordered primarily by DESCENDING EXPIRY; the ascending distance of the
strike from the underlying price orders candidates only within one expiry
(the sort underlies both `straddleSelect` and `strangleSelect`). -/
theorem C1_theorem (price : ℚ) (chain : List Contract) :
    (sortContracts price chain).Pairwise
      (fun a b => b.expiry ≤ a.expiry ∧
        (b.expiry = a.expiry → qabs (price - a.strike) ≤ qabs (price - b.strike))) :=
  sortContracts_pairwise_lex price chain

/-- C2, counterexample: on the spec's own example snapshot the strangle
policy does NOT return (CALL 105, PUT 95). -/
theorem C2_counterexample :
    strangleSelect 100 exStrangle ≠ some (⟨.call, 105, 1⟩, ⟨.put, 95, 1⟩) := by
  decide

/-- C2 (amended): for underlying price 100, a single expiry and contracts
{CALL 105, CALL 110, PUT 90, PUT 95}, the strangle policy returns
(CALL 110, PUT 90) — the highest-strike call and the lowest-strike put of
the expiry group, not the nearest qualifying strikes. -/
theorem C2_theorem :
    strangleSelect 100 exStrangle = some (⟨.call, 110, 1⟩, ⟨.put, 90, 1⟩) := by
  decide

/-- C3, counterexample: the contracts CALL 95 and PUT 95 share the key
(95, 1), yet the policy returns "no pair" because the equally-moneyed
CALL 105 separates them in the sorted sequence and `groupby` only joins
contiguous runs. -/
theorem C3_counterexample :
    straddleSelect 100 exSplitKey = none ∧
    Contract.mk .call 95 1 ∈ exSplitKey ∧
    Contract.mk .put 95 1 ∈ exSplitKey := by
  refine ⟨by decide, by decide, by decide⟩

/-- C3 (amended): the straddle policy splits the SORTED snapshot into
contiguous runs — every contract lies in exactly one run and each run is
constant in (strike, expiry), but one (strike, expiry) key may span
several runs — and it returns "no pair" iff no contiguous run contains
both a CALL and a PUT. -/
theorem C3_theorem (price : ℚ) (chain : List Contract) :
    ((groupByKey (fun c => (c.strike, c.expiry)) (sortContracts price chain)).flatten).Perm
      chain ∧
    (∀ g ∈ groupByKey (fun c => (c.strike, c.expiry)) (sortContracts price chain),
      ∀ a ∈ g, ∀ b ∈ g, (a.strike, a.expiry) = (b.strike, b.expiry)) ∧
    (straddleSelect price chain = none ↔
      ∀ g ∈ groupByKey (fun c => (c.strike, c.expiry)) (sortContracts price chain),
        ¬ (g.any isCall = true ∧ g.any isPut = true)) := by
  refine ⟨?_, ?_, ?_⟩
  · rw [groupByKey_join]
    exact sortContracts_perm price chain
  · exact groupByKey_key_const _ _
  · rcases hcand : straddleCandidates price chain with _ | ⟨g₀, rest⟩
    · constructor
      · intro _ g hg hcontra
        have hmem : g ∈ straddleCandidates price chain :=
          List.mem_filter.mpr ⟨hg, by simp [hcontra.1, hcontra.2]⟩
        rw [hcand] at hmem
        exact absurd hmem (List.not_mem_nil g)
      · intro _
        simp [straddleSelect, hcand]
    · constructor
      · intro h
        exfalso
        have hg₀ : g₀ ∈ straddleCandidates price chain := by
          rw [hcand]
          exact List.mem_cons_self _ _
        have hg₀' : g₀ ∈ groupByKey (fun c => (c.strike, c.expiry))
            (sortContracts price chain) := (List.mem_filter.mp hg₀).1
        have hne : g₀ ≠ [] := groupByKey_ne_nil _ _ g₀ hg₀'
        obtain ⟨c, t, rfl⟩ := List.exists_cons_of_ne_nil hne
        simp [straddleSelect, hcand] at h
      · intro hall
        exfalso
        have hg₀ : g₀ ∈ straddleCandidates price chain := by
          rw [hcand]
          exact List.mem_cons_self _ _
        have hg₀mem := List.mem_filter.mp hg₀
        have := hall g₀ hg₀mem.1
        simp only [Bool.and_eq_true] at hg₀mem
        exact this ⟨hg₀mem.2.1, hg₀mem.2.2⟩

/-- C4, counterexample: a group violating both the accounting-model check
and the leg-count check yields only the single first failure
(`MISMATCHED_ACCOUNTING_MODEL`), not all failing checks. -/
theorem C4_counterexample :
    verifyPositionGroup exBadGroup 2 2 = Except.error VerifyError.mismatchedAccountingModel ∧
    specFailures exBadGroup 2 2 =
      [VerifyError.mismatchedAccountingModel, VerifyError.unexpectedLegCount 3] ∧
    exBadGroup.legs.length ≠ 2 := by
  refine ⟨rfl, by decide, by decide⟩

/-- C4 (amended): for every PositionGroup and expected shape the verifier
returns a structured result, but it short-circuits: the result is `Ok`
iff no check fails, and an error carries exactly the FIRST failing check
of the fixed order, not every failing check. -/
theorem C4_theorem (g : PositionGroup) (ecq epq : ℤ) :
    (verifyPositionGroup g ecq epq = Except.ok () ↔ specFailures g ecq epq = []) ∧
    (∀ e, verifyPositionGroup g ecq epq = Except.error e ↔
      (specFailures g ecq epq).head? = some e) := by
  have h := verify_eq_head_failures g ecq epq
  rcases hh : (specFailures g ecq epq).head? with _ | e₀
  · rw [h, hh]
    have hnil := List.head?_eq_none_iff.mp hh
    simp [hnil]
  · rw [h, hh]
    have hne : specFailures g ecq epq ≠ [] := by
      intro hcon
      rw [hcon] at hh
      simp at hh
    constructor
    · simp [hne]
    · intro e
      simp [Except.error.injEq, eq_comm]

/-- C9: the verifier evaluates its checks in the fixed order — accounting
model tag, leg count, call-leg presence, put-leg presence, call quantity,
put quantity — and reports exactly the first failing check (the head of
the ordered list of all failing checks), never a later one. -/
theorem C9_theorem (g : PositionGroup) (ecq epq : ℤ) :
    verifyPositionGroup g ecq epq =
      (match (specFailures g ecq epq).head? with
       | none => Except.ok ()
       | some e => Except.error e) :=
  verify_eq_head_failures g ecq epq

/-- C8: the end-of-run check fails exactly when a position remains open or
the filled-order count differs from 4; the two violations carry distinct
failure kinds, and a residual position is reported as RESIDUAL_POSITION
regardless of the fill count. -/
theorem C8_theorem :
    (∀ (invested : Bool) (n : ℕ),
      endOfRunCheck invested n = Except.ok () ↔ (invested = false ∧ n = 4)) ∧
    (∀ n : ℕ, endOfRunCheck true n = Except.error EndOfRunError.residualPosition) ∧
    (∀ n : ℕ, endOfRunCheck false n =
      if n = 4 then Except.ok () else Except.error (EndOfRunError.orderCountMismatch n)) := by
  refine ⟨?_, ?_, ?_⟩
  · intro invested n
    cases invested
    · by_cases hn : n = 4
      · simp [endOfRunCheck, hn]
      · simp [endOfRunCheck, hn]
    · simp [endOfRunCheck]
  · intro n
    simp [endOfRunCheck]
  · intro n
    by_cases hn : n = 4
    · simp [endOfRunCheck, hn]
    · simp [endOfRunCheck, hn]

theorem legIsCall_mk_call (q : ℤ) : legIsCall ⟨OptionRight.call, q⟩ = true := rfl

theorem legIsCall_mk_put (q : ℤ) : legIsCall ⟨OptionRight.put, q⟩ = false := rfl

theorem legIsPut_mk_call (q : ℤ) : legIsPut ⟨OptionRight.call, q⟩ = false := rfl

theorem legIsPut_mk_put (q : ℤ) : legIsPut ⟨OptionRight.put, q⟩ = true := rfl

/-- C5: the verifier succeeds iff the accounting tag is the expected
combined-strategy tag, there are exactly 2 legs, exactly one CALL leg and
exactly one PUT leg, and the CALL and PUT legs carry exactly the expected
signed quantities; in particular the group [{CALL,+2},{PUT,+2}] with the
correct tag and expected (+2,+2) verifies Ok. -/
theorem C5_theorem (g : PositionGroup) (ecq epq : ℤ) :
    (verifyPositionGroup g ecq epq = Except.ok () ↔
      (g.accountingModelTag = expectedTag ∧ g.legs.length = 2 ∧
        g.legs.countP legIsCall = 1 ∧ g.legs.countP legIsPut = 1 ∧
        ∀ l ∈ g.legs, (l.right = OptionRight.call → l.quantity = ecq) ∧
          (l.right = OptionRight.put → l.quantity = epq))) ∧
    verifyPositionGroup exGoodGroup 2 2 = Except.ok () := by
  refine ⟨?_, rfl⟩
  by_cases h1 : g.accountingModelTag = expectedTag
  case neg =>
    simp [verifyPositionGroup, h1]
  by_cases h2 : g.legs.length = 2
  case neg =>
    simp [verifyPositionGroup, h1, h2]
  obtain ⟨a, b, hab⟩ := List.length_eq_two.mp h2
  rcases a with ⟨ar, aq⟩
  rcases b with ⟨br, bq⟩
  cases ar <;> cases br
  · -- two call legs: the put leg is missing and the put count is 0
    simp [verifyPositionGroup, h1, h2, hab, List.find?, List.countP, List.countP.go,
      legIsCall_mk_call, legIsPut_mk_call]
  · -- call then put: the success conditions are the two quantity checks
    simp only [verifyPositionGroup, h1, h2, hab, List.find?, legIsCall_mk_call,
      legIsPut_mk_call, legIsPut_mk_put, legIsCall_mk_put, ne_eq, not_true_eq_false,
      if_false, ite_not]
    by_cases h5 : aq = ecq
    · by_cases h6 : bq = epq
      · simp [h5, h6, List.countP, List.countP.go, legIsCall_mk_call, legIsCall_mk_put,
          legIsPut_mk_call, legIsPut_mk_put]
      · simp only [if_pos h5, if_neg h6]
        constructor
        · intro hcon
          exact absurd hcon (by simp)
        · rintro ⟨-, -, -, -, hq⟩
          have := (hq ⟨OptionRight.put, bq⟩ (by simp)).2 rfl
          exact absurd this h6
    · simp only [if_neg h5]
      constructor
      · intro hcon
        exact absurd hcon (by simp)
      · rintro ⟨-, -, -, -, hq⟩
        have := (hq ⟨OptionRight.call, aq⟩ (by simp)).1 rfl
        exact absurd this h5
  · -- put then call
    simp only [verifyPositionGroup, h1, h2, hab, List.find?, legIsCall_mk_call,
      legIsPut_mk_call, legIsPut_mk_put, legIsCall_mk_put, ne_eq, not_true_eq_false,
      if_false, ite_not]
    by_cases h5 : bq = ecq
    · by_cases h6 : aq = epq
      · simp [h5, h6, List.countP, List.countP.go, legIsCall_mk_call, legIsCall_mk_put,
          legIsPut_mk_call, legIsPut_mk_put]
      · simp only [if_pos h5, if_neg h6]
        constructor
        · intro hcon
          exact absurd hcon (by simp)
        · rintro ⟨-, -, -, -, hq⟩
          have := (hq ⟨OptionRight.put, aq⟩ (by simp)).2 rfl
          exact absurd this h6
    · simp only [if_neg h5]
      constructor
      · intro hcon
        exact absurd hcon (by simp)
      · rintro ⟨-, -, -, -, hq⟩
        have := (hq ⟨OptionRight.call, bq⟩ (by simp)).1 rfl
        exact absurd this h5
  · -- two put legs: the call leg is missing and the call count is 0
    simp [verifyPositionGroup, h1, h2, hab, List.find?, List.countP, List.countP.go,
      legIsCall_mk_put, legIsPut_mk_put]

/-- C6: whenever the strangle policy returns a pair, the call has right
CALL, the put has right PUT, the call strike strictly exceeds the put
strike, and both contracts share the same expiry. -/
theorem C6_theorem (price : ℚ) (chain : List Contract) (c p : Contract)
    (h : strangleSelect price chain = some (c, p)) :
    c.right = OptionRight.call ∧ p.right = OptionRight.put ∧
      p.strike < c.strike ∧ c.expiry = p.expiry := by
  have hexp : ∀ g ∈ groupByKey (fun x : Contract => x.expiry) (sortContracts price chain),
      ∀ a ∈ g, ∀ b ∈ g, a.expiry = b.expiry :=
    groupByKey_key_const _ _
  exact strangleLoop_some_spec _ hexp h

/-- Witness for C6 on a concrete snapshot where the policy returns a pair. -/
theorem C6_witness :
    strangleSelect 100 [⟨.call, 105, 1⟩, ⟨.put, 95, 1⟩] =
      some (⟨.call, 105, 1⟩, ⟨.put, 95, 1⟩) ∧
    ((⟨.call, 105, 1⟩ : Contract).right = OptionRight.call ∧
      (⟨.put, 95, 1⟩ : Contract).right = OptionRight.put ∧
      (⟨.put, 95, 1⟩ : Contract).strike < (⟨.call, 105, 1⟩ : Contract).strike ∧
      (⟨.call, 105, 1⟩ : Contract).expiry = (⟨.put, 95, 1⟩ : Contract).expiry) :=
  ⟨by decide, C6_theorem 100 [⟨.call, 105, 1⟩, ⟨.put, 95, 1⟩] _ _ (by decide)⟩

/-- C10: grouping the sorted chain into contiguous expiry runs yields
exactly one group per distinct expiry: the runs partition the snapshot,
distinct runs have distinct expiries, and every run contains ALL the
snapshot's contracts of its expiry. -/
theorem C10_theorem (price : ℚ) (chain : List Contract) :
    ((groupByKey (fun c => c.expiry) (sortContracts price chain)).flatten).Perm chain ∧
    (groupByKey (fun c => c.expiry) (sortContracts price chain)).Pairwise
      (fun g h => ∀ a ∈ g, ∀ b ∈ h, a.expiry ≠ b.expiry) ∧
    (∀ g ∈ groupByKey (fun c => c.expiry) (sortContracts price chain),
      ∀ a ∈ g, ∀ c ∈ chain, c.expiry = a.expiry → c ∈ g) := by
  have hsorted := sortContracts_sorted_expiry price chain
  refine ⟨?_, ?_, ?_⟩
  · rw [groupByKey_join]
    exact sortContracts_perm price chain
  · exact groupByKey_sorted_pairwise_ne _ _ hsorted
  · intro g hg a ha c hc hce
    have hcs : c ∈ sortContracts price chain :=
      ((sortContracts_perm price chain).mem_iff).mpr hc
    have hcf : c ∈ (groupByKey (fun c => c.expiry) (sortContracts price chain)).flatten := by
      rw [groupByKey_join]
      exact hcs
    obtain ⟨h', hh', hch'⟩ := List.mem_flatten.mp hcf
    by_cases hgh : g = h'
    · rw [hgh]
      exact hch'
    · exfalso
      have hpw := groupByKey_sorted_pairwise_ne (fun c : Contract => c.expiry) _ hsorted
      have hsym : Symmetric (fun g h : List Contract =>
          ∀ a ∈ g, ∀ b ∈ h, a.expiry ≠ b.expiry) := by
        intro u v huv a ha b hb
        exact (huv b hb a ha).symm
      have hrel := List.Pairwise.forall hsym hpw hg hh' hgh
      exact hrel a ha c hch' hce.symm

/-- C7, counterexample: the straddle policy is NOT independent of the
snapshot's enumeration order — two snapshots with the same set of
contracts but different order give different results. -/
theorem C7_counterexample :
    exSplitKey.Perm exSplitKeyPerm ∧
    straddleSelect 100 exSplitKey = none ∧
    straddleSelect 100 exSplitKeyPerm = some (95, 1) :=
  ⟨by decide, by decide, by decide⟩

/-- C7 (amended): both policies are deterministic functions of the given
snapshot (in this embedding, literally functions); the STRANGLE policy is
moreover independent of the enumeration order of the contract collection,
while the straddle policy is order-dependent (see its counterexample). -/
theorem C7_theorem (price : ℚ) (l₁ l₂ : List Contract) (hp : l₁.Perm l₂) :
    strangleSelect price l₁ = strangleSelect price l₂ := by
  have hs₁ := sortContracts_sorted_expiry price l₁
  have hs₂ := sortContracts_sorted_expiry price l₂
  have hsp : (sortContracts price l₁).Perm (sortContracts price l₂) :=
    (sortContracts_perm price l₁).trans (hp.trans (sortContracts_perm price l₂).symm)
  have hF := groupByKey_perm_congr (fun c : Contract => c.expiry) _ _ hs₁ hs₂ hsp
  have hexp : ∀ g ∈ groupByKey (fun c : Contract => c.expiry) (sortContracts price l₁),
      ∀ a ∈ g, ∀ b ∈ g, a.expiry = b.expiry := groupByKey_key_const _ _
  exact strangleLoop_congr hF hexp

/-- Witness for C7 on two concrete enumeration orders of one snapshot. -/
theorem C7_witness :
    ([⟨.call, 105, 1⟩, ⟨.put, 95, 1⟩] : List Contract).Perm
      [⟨.put, 95, 1⟩, ⟨.call, 105, 1⟩] ∧
    strangleSelect 100 [⟨.call, 105, 1⟩, ⟨.put, 95, 1⟩] =
      strangleSelect 100 [⟨.put, 95, 1⟩, ⟨.call, 105, 1⟩] :=
  ⟨by decide, C7_theorem 100 _ _ (by decide)⟩

end StraddleStrangle
